import Mathlib

/-!
Verification of the transformd-demo-preprocessor search-value logic.

The development shallowly embeds the functions of src/index.ts. JavaScript
strings are modelled as lists of characters, and every string operation the
source uses (startsWith, endsWith, substring, split, trim, join, Array.from)
is given an explicit definition with the JavaScript semantics. Fallible code
is modelled with Except. Definitions carry the names of the source functions
where Lean allows it.
-/

/-- Characters of a string literal, the working representation of a
JavaScript string. -/
def strL (s : String) : List Char := s.data

/-- JavaScript String.prototype.startsWith for a list-of-characters string. -/
def startsWithL : List Char → List Char → Bool
  | [], _ => true
  | _ :: _, [] => false
  | p :: ps, c :: cs => p == c && startsWithL ps cs

/-- JavaScript s.endsWith(c) for a one-character suffix c. -/
def lastIs (c : Char) (l : List Char) : Bool :=
  match l.reverse with
  | [] => false
  | x :: _ => x == c

/-- JavaScript String.prototype.substring(a, b): both indices are clamped to
the string length and swapped when out of order. -/
def substringJS (a b : Nat) (l : List Char) : List Char :=
  let n := l.length
  let x := min (min a b) n
  let y := min (max a b) n
  (l.drop x).take (y - x)

/-- JavaScript String.prototype.split with a one-character separator.
Splitting the empty string yields one empty piece, as in JavaScript. -/
def splitOnChar (sep : Char) : List Char → List (List Char)
  | [] => [[]]
  | c :: rest =>
    match splitOnChar sep rest with
    | [] => [[]]
    | h :: t => if c = sep then [] :: h :: t else (c :: h) :: t

/-- JavaScript Array.prototype.join viewed on character lists: the separator
is placed between consecutive pieces and not after the last. -/
def intercalateL (sep : List Char) : List (List Char) → List Char
  | [] => []
  | [x] => x
  | x :: y :: rest => x ++ sep ++ intercalateL sep (y :: rest)

/-- White space recognised by JavaScript String.prototype.trim (the code only
ever meets plain spaces). -/
def isJsWs (c : Char) : Bool :=
  c = ' ' || c = '\t' || c = '\n' || c = '\r' || c = '\x0b' || c = '\x0c' ||
    c = '\xa0' || c = '\uFEFF'

/-- JavaScript String.prototype.trim. -/
def trimL (l : List Char) : List Char :=
  ((l.dropWhile isJsWs).reverse.dropWhile isJsWs).reverse

/-- First-occurrence deduplication, the order-preserving semantics of the
JavaScript idiom [...new Set(xs)] used at line 106 of index.ts. -/
def dedupFirstAux (seen : List (List Char)) : List (List Char) → List (List Char)
  | [] => []
  | x :: rest =>
    if x ∈ seen then dedupFirstAux seen rest
    else x :: dedupFirstAux (x :: seen) rest

/-- Deduplication keeping first occurrences, modelling new Set insertion
order. -/
def dedupFirst (l : List (List Char)) : List (List Char) := dedupFirstAux [] l

/-- The failures the script can raise while deriving search values:
invalidArity models the throw in getConcatenatedPathArgs, invalidExpression
the throw in execute naming the offending expression, and typeError the
JavaScript TypeError raised inside the parser callback when the concat
method is read off a field value that has none (a missing field among
others), which the loop does for every requested field except the last. -/
inductive Err where
  | invalidArity : Err
  | invalidExpression (expr : List Char) : Err
  | typeError : Err
deriving DecidableEq

/-- index.ts isConcatenated: does the specification string start with the
literal token concat( . -/
def isConcatenated (path : List Char) : Bool :=
  startsWithL (strL "concat(") path

/-- index.ts hasRoot: does the expression start with the root symbol. -/
def hasRoot (path : List Char) : Bool :=
  startsWithL (strL "$") path

/-- The substring of a concat specification between the opening parenthesis
and the trailing closing parenthesis when present, otherwise the end of the
string: path.substring(7, path.endsWith close ? length - 1 : length). -/
def concatBody (path : List Char) : List Char :=
  substringJS (strL "concat(").length
    (if lastIs ')' path then path.length - 1 else path.length) path

/-- index.ts getConcatenatedPathArgs: split the body on commas and fail with
invalidArity when fewer than three tokens result. -/
def getConcatenatedPathArgs (path : List Char) : Except Err (List (List Char)) :=
  let pathArgs := splitOnChar ',' (concatBody path)
  if pathArgs.length < 3 then .error .invalidArity else .ok pathArgs

/-- index.ts getConcatenatedDelimiter: the trimmed first concat argument. -/
def getConcatenatedDelimiter (path : List Char) : Except Err (List Char) :=
  match getConcatenatedPathArgs path with
  | .error e => .error e
  | .ok [] => .error .typeError
  | .ok (a :: _) => .ok (trimL a)

/-- index.ts getSearchPathExpressions. In the concat branch the delimiter is
removed by shift and each remaining argument is trimmed and stripped of a
leading root symbol. In the other branch the source applies Array.from to
the string, which decomposes it into its individual characters. -/
def getSearchPathExpressions (path : List Char) : Except Err (List (List Char)) :=
  if isConcatenated path then
    match getConcatenatedPathArgs path with
    | .error e => .error e
    | .ok pathArgs =>
      .ok ((pathArgs.drop 1).map (fun a =>
        let pathArg := trimL a
        if hasRoot pathArg then pathArg.drop 1 else pathArg))
  else
    .ok ((if hasRoot path then path.drop 1 else path).map (fun c => [c]))

/-- The leaf extraction loop of execute (lines 70 to 79): each expression is
split on dots, the popped last segment is the field name and must be
non-empty, and the re-joined remainder is the containment path pushed to
pathValues. -/
def computeFieldsAux : List (List Char) → Except Err (List (List Char) × List (List Char))
  | [] => .ok ([], [])
  | e :: rest =>
    match (splitOnChar '.' e).reverse with
    | [] => .error (.invalidExpression e)
    | leaf :: preRev =>
      if leaf.isEmpty then .error (.invalidExpression e)
      else
        match computeFieldsAux rest with
        | .error er => .error er
        | .ok (fs, ps) => .ok (leaf :: fs, intercalateL (strL ".") preRev.reverse :: ps)

/-- Does an expression have an empty final dot-separated segment. -/
def emptyLeaf (e : List Char) : Bool :=
  match (splitOnChar '.' e).reverse with
  | [] => true
  | leaf :: _ => leaf.isEmpty

/-- The pre-input phase of execute (lines 63 to 79), in source order: parse
the search path specification, compute the concat delimiter when more than
one expression resulted, then extract field names and containment paths.
Returns the delimiter, the field names and the containment paths. -/
def execPre (spec : List Char) :
    Except Err (List Char × List (List Char) × List (List Char)) :=
  match getSearchPathExpressions spec with
  | .error e => .error e
  | .ok pathExpressions =>
    match
      (if pathExpressions.length > 1 then getConcatenatedDelimiter spec
       else .ok ([] : List Char)) with
    | .error e => .error e
    | .ok concatDelimiter =>
      match computeFieldsAux pathExpressions with
      | .error e => .error e
      | .ok (fieldNames, pathValues) => .ok (concatDelimiter, fieldNames, pathValues)


/-- The JSON values the resolvers traverse. Numbers are modelled as integers;
no claim under verification depends on numeric leaves. -/
inductive Json where
  | nul : Json
  | boolean (b : Bool) : Json
  | num (n : Int) : Json
  | str (s : List Char) : Json
  | arr (elems : List Json) : Json
  | obj (mems : List (List Char × Json)) : Json

/-- Field lookup in a JSON object member list, first match wins. -/
def lookupMem (k : List Char) : List (List Char × Json) → Option Json
  | [] => none
  | (k2, v) :: rest => if k2 = k then some v else lookupMem k rest

/-- JavaScript property access data[field] on a JSON value. -/
def lookupField (j : Json) (k : List Char) : Option Json :=
  match j with
  | .obj ms => lookupMem k ms
  | _ => none

/-- The string value of a field of an event payload, when the field is
present with a string value. -/
def getStr (data : Json) (f : List Char) : Option (List Char) :=
  match lookupField data f with
  | some (.str s) => some s
  | _ => none

/-- JavaScript ToString on a JSON value: strings verbatim, null, booleans
and integers as their literal text, objects as the object placeholder text,
and arrays joined by commas with null elements contributing nothing. The
fuel argument bounds the array nesting depth; the zero-fuel array case is
unreachable when the fuel is at least the size of the value. -/
def jsToStringFuel : Json → Nat → List Char
  | .nul, _ => strL "null"
  | .boolean b, _ => if b then strL "true" else strL "false"
  | .num n, _ => strL (toString n)
  | .str s, _ => s
  | .obj _, _ => strL "[object Object]"
  | .arr xs, fuel =>
    match fuel with
    | 0 => []
    | fuel2 + 1 =>
      intercalateL [','] (xs.map (fun x =>
        match x with
        | .nul => []
        | y => jsToStringFuel y fuel2))

mutual

/-- The number of nodes of a JSON value through arrays, an upper bound for
the array nesting depth. -/
def jsonSize : Json → Nat
  | .nul => 1
  | .boolean _ => 1
  | .num _ => 1
  | .str _ => 1
  | .arr xs => 1 + jsonSizeList xs
  | .obj _ => 1

/-- The summed sizes of the values of a list. -/
def jsonSizeList : List Json → Nat
  | [] => 0
  | x :: xs => jsonSize x + jsonSizeList xs

end

/-- JavaScript ToString on a JSON value, with fuel ample for its depth. -/
def jsToString (j : Json) : List Char := jsToStringFuel j (jsonSize j)

/-- The contribution of a non-last requested field (index below length - 1
in the callback loop): the source evaluates data[field].concat(delimiter),
so a missing field, or any value without a concat method (null, a boolean,
a number, an object), raises a TypeError; a string value yields the value
followed by the delimiter; an array value yields the array with the
delimiter appended as one element, coerced to text when the outer
parserValue.concat runs. -/
def concatField (data : Json) (concatDelimiter : List Char) (f : List Char) :
    Except Err (List Char) :=
  match lookupField data f with
  | none => .error .typeError
  | some (.str s) => .ok (s ++ concatDelimiter)
  | some (.arr xs) => .ok (jsToString (.arr (xs ++ [.str concatDelimiter])))
  | some _ => .error .typeError

/-- The contribution of the last requested field: the source evaluates
parserValue.concat(data[field]), and String.prototype.concat ToString-coerces
its argument, so a missing field contributes the text undefined and no value
ever raises an error here. -/
def lastField (data : Json) (f : List Char) : List Char :=
  match lookupField data f with
  | none => strL "undefined"
  | some v => jsToString v

/-- The event types delivered by the materializing JSON parser of the
@quadient/evolve-data-transformations library; the callback only ever
distinguishes ANY_VALUE from the rest. -/
inductive JsonEventType where
  | ANY_VALUE
  | START_OBJECT
  | END_OBJECT
  | START_ARRAY
  | END_ARRAY
  | VALUE
deriving DecidableEq

/-- A structural parse event: its type and, for ANY_VALUE, the materialized
node value. -/
structure JsonEvent where
  type : JsonEventType
  data : Json

/-- The accumulation inside the parserCallback loop of execute (lines 86 to
91): every field except the last contributes through
data[field].concat(delimiter), which raises a TypeError when the field is
missing or has no concat method, while the last field contributes through
parserValue.concat(data[field]), which ToString-coerces any value, a missing
one included, and never raises. -/
def buildParserValue (data : Json) (concatDelimiter : List Char) :
    List (List Char) → Except Err (List Char)
  | [] => .ok []
  | [f] => .ok (lastField data f)
  | f :: f2 :: rest =>
    match concatField data concatDelimiter f with
    | .error e => .error e
    | .ok v =>
      match buildParserValue data concatDelimiter (f2 :: rest) with
      | .error e => .error e
      | .ok t => .ok (v ++ t)

/-- index.ts parserCallback (lines 82 to 94): on an ANY_VALUE event, build
the concatenated record string and push it onto searchValues; on every other
event type do nothing. -/
def parserCallback (fieldNames : List (List Char)) (concatDelimiter : List Char)
    (searchValues : List (List Char)) (event : JsonEvent) :
    Except Err (List (List Char)) :=
  match event.type with
  | .ANY_VALUE =>
    match buildParserValue event.data concatDelimiter fieldNames with
    | .ok parserValue => .ok (searchValues ++ [parserValue])
    | .error e => .error e
  | _ => .ok searchValues

/-- Feeding a whole event sequence through parserCallback, threading the
searchValues accumulator; a raised error aborts the run. -/
def processEvents (fieldNames : List (List Char)) (concatDelimiter : List Char)
    (searchValues : List (List Char)) :
    List JsonEvent → Except Err (List (List Char))
  | [] => .ok searchValues
  | e :: rest =>
    match parserCallback fieldNames concatDelimiter searchValues e with
    | .ok acc2 => processEvents fieldNames concatDelimiter acc2 rest
    | .error er => .error er

/-- One segment of a materialized path: a field name, possibly followed by a
wildcard over every element of the array stored there. -/
structure MatSeg where
  name : List Char
  wild : Bool

/-- Modelled from the spec: the segment grammar of the containment paths, a
dot-separated sequence of field names where a segment of the form name[*]
selects every element of the array at that field (section 4.2: wildcard
array traversal). Empty segments, such as the one left by the stripped root
symbol, are skipped. -/
def parseMatPath (p : List Char) : List MatSeg :=
  ((splitOnChar '.' p).filter (fun s => !s.isEmpty)).map (fun s =>
    if lastIs ']' s && startsWithL (strL "[*]") (s.reverse.take 3).reverse then
      { name := s.take (s.length - 3), wild := true }
    else
      { name := s, wild := false })

/-- The JSON elements of an array value, and nothing for any other value. -/
def arrElems : Json → List Json
  | .arr xs => xs
  | _ => []

/-- Modelled from the spec: node selection for one materialized path
(sections 4.2 and 4.3), walking the document field by field and fanning out
over array elements at a wildcard, in document order. -/
def matchNodes : List MatSeg → Json → List Json
  | [], j => [j]
  | s :: rest, j =>
    match lookupField j s.name with
    | none => []
    | some v =>
      if s.wild then (arrElems v).flatMap (matchNodes rest)
      else matchNodes rest v

/-- Modelled from the spec: the external JsonMaterializingParser of the
@quadient/evolve-data-transformations library (not part of this repository)
emits one ANY_VALUE event per document node matched by each materialized
path, in document order, carrying the node as its data (sections 4.3, 6
and the glossary entry for structural events). -/
def materializeEvents (materializedPaths : List (List Char)) (doc : Json) :
    List JsonEvent :=
  materializedPaths.flatMap (fun p =>
    (matchNodes (parseMatPath p) doc).map (fun n => (⟨.ANY_VALUE, n⟩ : JsonEvent)))

/-- A whole streaming run of execute on an already-parsed input document:
the pre-input phase, the deduplicated materialized paths of line 106, the
modelled event stream, and the parserCallback fold, yielding the final
searchValues list. -/
def runStreaming (spec : List Char) (doc : Json) : Except Err (List (List Char)) :=
  match execPre spec with
  | .error e => .error e
  | .ok (concatDelimiter, fieldNames, pathValues) =>
    let materializedPaths := dedupFirst pathValues
    let events := materializeEvents materializedPaths doc
    processEvents fieldNames concatDelimiter [] events

/-- The demo specification string, the default value of the
sessionSearchPath parameter. -/
def demoSpec : List Char :=
  strL "concat(-, $.Clients[*].ClientID, $.Clients[*].ClaimID)"

/-- The demo document with two client records. -/
def demoDoc : Json :=
  .obj [(strL "Clients", .arr
    [ .obj [(strL "ClientID", .str (strL "A1")), (strL "ClaimID", .str (strL "99"))]
    , .obj [(strL "ClientID", .str (strL "A2")), (strL "ClaimID", .str (strL "88"))] ])]


/-- Lower-case hexadecimal digit, as produced by JSON.stringify escapes. -/
def hexDig (n : Nat) : Char :=
  if n < 10 then Char.ofNat (48 + n) else Char.ofNat (87 + n)

/-- The escape JSON.stringify applies to one character of a string value:
quote and backslash are backslash-escaped, the named control characters use
their short escapes, the remaining control characters use a lower-case
unicode escape, and every other character is emitted verbatim. -/
def escape1 (c : Char) : List Char :=
  if c = '"' then ['\\', '"']
  else if c = '\\' then ['\\', '\\']
  else if c = '\x08' then ['\\', 'b']
  else if c = '\t' then ['\\', 't']
  else if c = '\n' then ['\\', 'n']
  else if c = '\x0c' then ['\\', 'f']
  else if c = '\r' then ['\\', 'r']
  else if c.toNat < 32 then
    ['\\', 'u', '0', '0', hexDig (c.toNat / 16), hexDig (c.toNat % 16)]
  else [c]

/-- JSON string escaping of a whole value. -/
def escCh (s : List Char) : List Char := s.flatMap escape1

/-- A JSON string literal: the escaped value between double quotes. -/
def quoteStr (v : List Char) : List Char := '"' :: escCh v ++ ['"']

/-- JSON.stringify on an array of strings: the quoted escaped elements,
comma-separated, between square brackets. -/
def stringifyArr (vs : List (List Char)) : List Char :=
  '[' :: intercalateL (strL ",") (vs.map quoteStr) ++ [']']

/-- The output written by execute (line 116): the literal text
left-brace "values": followed by JSON.stringify of searchValues and a
closing right-brace. -/
def serializeValues (vs : List (List Char)) : List Char :=
  strL "\x7b\"values\":" ++ stringifyArr vs ++ strL "\x7d"

/-- Value of a hexadecimal digit character. -/
def hexVal (c : Char) : Option Nat :=
  if '0' ≤ c ∧ c ≤ '9' then some (c.toNat - 48)
  else if 'a' ≤ c ∧ c ≤ 'f' then some (c.toNat - 87)
  else if 'A' ≤ c ∧ c ≤ 'F' then some (c.toNat - 55)
  else none

/-- Decode four hexadecimal digits of a unicode escape into the denoted
character and the unread remainder. -/
def decodeHex4 : List Char → Option (Char × List Char)
  | h1 :: h2 :: h3 :: h4 :: rest =>
    match hexVal h1, hexVal h2, hexVal h3, hexVal h4 with
    | some a, some b, some c2, some d2 =>
      some (Char.ofNat (((a * 16 + b) * 16 + c2) * 16 + d2), rest)
    | _, _, _, _ => none
  | _ => none

/-- The character denoted by a named escape after a backslash, when there is
one. -/
def unescape1 (e : Char) : Option Char :=
  if e = '"' then some '"'
  else if e = '\\' then some '\\'
  else if e = '/' then some '/'
  else if e = 'b' then some '\x08'
  else if e = 't' then some '\t'
  else if e = 'n' then some '\n'
  else if e = 'f' then some '\x0c'
  else if e = 'r' then some '\r'
  else none

/-- Reference decoder for a JSON string literal body: reads characters after
the opening quote up to the closing quote, undoing the escapes, and returns
the decoded value together with the unread remainder. The fuel argument
bounds the number of decoded characters. Used only to state that the
serialized output denotes the original values. -/
def parseJStr : Nat → List Char → Option (List Char × List Char)
  | _, [] => none
  | 0, _ :: _ => none
  | fuel + 1, c :: rest =>
    if c = '"' then some ([], rest)
    else if c = '\\' then
      match rest with
      | [] => none
      | e :: rest2 =>
        if e = 'u' then
          match decodeHex4 rest2 with
          | some (ch, rest3) => (parseJStr fuel rest3).map (fun p => (ch :: p.1, p.2))
          | none => none
        else
          match unescape1 e with
          | some ch => (parseJStr fuel rest2).map (fun p => (ch :: p.1, p.2))
          | none => none
    else (parseJStr fuel rest).map (fun p => (c :: p.1, p.2))

/-- Reference decoder for the tail of a JSON string array after one element
has been read: either the closing bracket, or a comma followed by another
string literal. The fuel argument bounds the number of elements. -/
def parseArrTail : Nat → List Char → Option (List (List Char) × List Char)
  | _, ']' :: r => some ([], r)
  | fuel + 1, ',' :: '"' :: r =>
    match parseJStr r.length r with
    | some (v, r2) =>
      match parseArrTail fuel r2 with
      | some (vs, r3) => some (v :: vs, r3)
      | none => none
    | none => none
  | _, _ => none

/-- Consume an expected literal from the front of the input. -/
def dropLead : List Char → List Char → Option (List Char)
  | [], l => some l
  | _ :: _, [] => none
  | p :: ps, c :: cs => if p = c then dropLead ps cs else none

/-- Reference decoder for the output object after the leading text: either
the immediately closed empty array, or a first string literal followed by
the array tail, each time checking the closing right-brace. -/
def decodeAfterLead : List Char → Option (List (List Char))
  | ']' :: r2 => if r2 = strL "\x7d" then some [] else none
  | '"' :: r2 =>
    match parseJStr r2.length r2 with
    | none => none
    | some (v, r3) =>
      match parseArrTail r3.length r3 with
      | none => none
      | some (vs, r4) => if r4 = strL "\x7d" then some (v :: vs) else none
  | _ => none

/-- Reference decoder for the whole output object: the literal
left-brace "values": prelude, a JSON string array, and the closing
right-brace, yielding the decoded list of values. -/
def decodeValuesObj (l : List Char) : Option (List (List Char)) :=
  match dropLead (strL "\x7b\"values\":[") l with
  | none => none
  | some r => decodeAfterLead r


/-- Is a result the invalid expression error (used to state that the
expression parser never raises it). -/
def isInvalidExprErr : Except Err (List (List Char)) → Bool
  | .error (.invalidExpression _) => true
  | _ => false

/-- The ANY_VALUE events of a stream, the events the callback reacts to;
each one carries one materialized logical record. -/
def keepANY : List JsonEvent → List JsonEvent
  | [] => []
  | e :: r =>
    match e.type with
    | .ANY_VALUE => e :: keepANY r
    | _ => keepANY r

/-- The record string as the specification words it: the resolved field
values in the user-specified field order, with the delimiter between
consecutive fields and not after the last. -/
def recordString (concatDelimiter : List Char) (fieldNames : List (List Char))
    (data : Json) : List Char :=
  intercalateL concatDelimiter (fieldNames.map (fun f => (getStr data f).getD []))

/-- C1: for the demo document with two client records and the default
specification string concat(-, $.Clients[*].ClientID, $.Clients[*].ClaimID),
a run of the streaming resolver produces exactly the ordered search values
A1-99 and A2-88. -/
theorem demo_pipeline_search_values :
    runStreaming demoSpec demoDoc = .ok [strL "A1-99", strL "A2-88"] := rfl

/-- C5, failing input: for the non-concat specification string $.a.b the
parser does not return the single-element list holding that expression;
Array.from decomposes the root-stripped string into its individual
characters, yielding the four one-character expressions. -/
theorem single_path_char_split_bug :
    getSearchPathExpressions (strL "$.a.b") =
      .ok [strL ".", strL "a", strL ".", strL "b"] ∧
    getSearchPathExpressions (strL "$.a.b") ≠ .ok [strL ".a.b"] := by
  refine ⟨rfl, ?_⟩
  rw [show getSearchPathExpressions (strL "$.a.b") =
    .ok [strL ".", strL "a", strL ".", strL "b"] from rfl]
  simp [strL]

/-- C3: every specification string that begins with concat( and whose
comma-separated argument list has fewer than three tokens in total fails
with the invalid arity error. -/
theorem concat_arity_invalid (s : List Char)
    (h1 : isConcatenated s = true)
    (h2 : (splitOnChar ',' (concatBody s)).length < 3) :
    getSearchPathExpressions s = .error .invalidArity := by
  unfold getSearchPathExpressions getConcatenatedPathArgs
  rw [h1]
  simp [h2]

/-- C3 witness: the specification concat(-, $.a) has two comma tokens only
and indeed fails with the invalid arity error. -/
theorem concat_arity_invalid_witness :
    getSearchPathExpressions (strL "concat(-, $.a)") = .error .invalidArity :=
  concat_arity_invalid (strL "concat(-, $.a)") (by decide) (by decide)

/-- C10: the parser callback leaves the accumulated search values unchanged
on every event that is not an ANY_VALUE event, and whenever the callback
returns an accumulator different from the one it was given, the event was an
ANY_VALUE event. -/
theorem parserCallback_frame (fieldNames : List (List Char))
    (concatDelimiter : List Char) (searchValues : List (List Char))
    (event : JsonEvent) :
    (event.type ≠ .ANY_VALUE →
      parserCallback fieldNames concatDelimiter searchValues event = .ok searchValues) ∧
    (∀ acc2, parserCallback fieldNames concatDelimiter searchValues event = .ok acc2 →
      acc2 ≠ searchValues → event.type = .ANY_VALUE) := by
  obtain ⟨t, d⟩ := event
  constructor
  · intro h
    cases t
    case ANY_VALUE => exact absurd rfl h
    all_goals rfl
  · intro acc2 h hne
    cases t
    case ANY_VALUE => rfl
    all_goals
      simp only [parserCallback] at h
      exact absurd (Except.ok.inj h).symm hne

/-- C10 witness: an END_OBJECT event leaves a concrete accumulator
unchanged. -/
theorem parserCallback_frame_witness :
    parserCallback [strL "a"] (strL "-") [strL "x"]
      (⟨.END_OBJECT, .nul⟩ : JsonEvent) = .ok [strL "x"] :=
  (parserCallback_frame [strL "a"] (strL "-") [strL "x"]
    (⟨.END_OBJECT, .nul⟩ : JsonEvent)).1 (by decide)

/-- C4 counterexample: the concat arguments a and b lack the root symbol,
yet parsing succeeds and returns them unchanged instead of failing with the
invalid expression error. -/
theorem rootless_concat_args_accepted :
    getSearchPathExpressions (strL "concat(-,a,b)") = .ok [strL "a", strL "b"] := rfl

/-- C4 amended: no root-anchor validation exists. The expression parser
never raises the invalid expression error for any input; a concat path
argument lacking the root symbol is accepted unchanged, as the arguments a
and b of concat(-,a,b) show. -/
theorem parse_never_invalid_expression :
    (∀ s, isInvalidExprErr (getSearchPathExpressions s) = false) ∧
    getSearchPathExpressions (strL "concat(-,a,b)") = .ok [strL "a", strL "b"] := by
  refine ⟨fun s => ?_, rfl⟩
  unfold getSearchPathExpressions getConcatenatedPathArgs
  by_cases h : (splitOnChar ',' (concatBody s)).length < 3
  · simp [h]
    split <;> rfl
  · simp [h]
    split <;> rfl

/-- C6 counterexample: the specification foo.bar parses to seven
one-character expressions, among them the dot whose final dot-separated
segment is empty, yet the run fails with the invalid arity error from the
delimiter computation, not with the invalid expression error naming that
expression. -/
theorem dotted_path_preempted_by_arity :
    execPre (strL "foo.bar") = .error .invalidArity ∧
    execPre (strL "foo.bar") ≠ .error (.invalidExpression (strL ".")) := by
  refine ⟨rfl, ?_⟩
  rw [show execPre (strL "foo.bar") = .error .invalidArity from rfl]
  simp

/-- C6 amended: within the field extraction stage, a parsed path expression
whose final dot-separated segment is empty makes the stage fail with the
invalid expression error naming the first such expression, and every
expression list the stage accepts yields only non-empty leaf field names;
the run can however fail earlier, in the delimiter computation, with the
invalid arity error instead. -/
theorem empty_leaf_rejected (exprs : List (List Char)) :
    ((∃ e ∈ exprs, emptyLeaf e = true) →
      ∃ e ∈ exprs, emptyLeaf e = true ∧
        computeFieldsAux exprs = .error (.invalidExpression e)) ∧
    (∀ fs ps, computeFieldsAux exprs = .ok (fs, ps) →
      ∀ f ∈ fs, f.isEmpty = false) := by
  induction exprs with
  | nil =>
    constructor
    · rintro ⟨e, he, -⟩
      exact absurd he (List.not_mem_nil e)
    · intro fs ps h f hf
      simp only [computeFieldsAux, Except.ok.injEq, Prod.mk.injEq] at h
      obtain ⟨h1, -⟩ := h
      subst h1
      exact absurd hf (List.not_mem_nil f)
  | cons e rest ih =>
    constructor
    · rintro ⟨x, hx, hxleaf⟩
      rcases hrev : (splitOnChar '.' e).reverse with - | ⟨leaf, preRev⟩
      · refine ⟨e, List.mem_cons_self e rest, ?_, ?_⟩
        · simp [emptyLeaf, hrev]
        · simp [computeFieldsAux, hrev]
      · by_cases hleaf : leaf.isEmpty = true
        · refine ⟨e, List.mem_cons_self e rest, ?_, ?_⟩
          · simp [emptyLeaf, hrev, hleaf]
          · simp [computeFieldsAux, hrev, hleaf]
        · have hx' : x ∈ rest := by
            rcases List.mem_cons.mp hx with h | h
            · subst h
              exact absurd hxleaf (by simp [emptyLeaf, hrev, hleaf])
            · exact h
          obtain ⟨e2, he2, he2leaf, he2err⟩ := ih.1 ⟨x, hx', hxleaf⟩
          refine ⟨e2, List.mem_cons_of_mem e he2, he2leaf, ?_⟩
          simp [computeFieldsAux, hrev, hleaf, he2err]
    · intro fs ps h f hf
      rcases hrev : (splitOnChar '.' e).reverse with - | ⟨leaf, preRev⟩
      · simp [computeFieldsAux, hrev] at h
      · by_cases hleaf : leaf.isEmpty = true
        · simp [computeFieldsAux, hrev, hleaf] at h
        · simp only [computeFieldsAux, hrev, hleaf, if_false] at h
          cases hr : computeFieldsAux rest with
          | error er => rw [hr] at h; simp at h
          | ok pr =>
            obtain ⟨fs2, ps2⟩ := pr
            rw [hr] at h
            injection h with hpair
            injection hpair with h1 h2
            subst h1
            rcases List.mem_cons.mp hf with hfl | hfl
            · subst hfl
              exact Bool.not_eq_true _ ▸ (by simpa using hleaf)
            · exact ih.2 fs2 ps2 hr f hfl

/-- C6 witness: the expression list holding the single expression a. has an
empty leaf and the extraction stage rejects it with the invalid expression
error naming it. -/
theorem empty_leaf_rejected_witness :
    ∃ e ∈ [strL "a."], emptyLeaf e = true ∧
      computeFieldsAux [strL "a."] = .error (.invalidExpression e) :=
  (empty_leaf_rejected [strL "a."]).1 ⟨strL "a.", by decide, by decide⟩

/-- C7 counterexample: an event stream whose only record lacks the requested
field ClaimID, the last requested field, makes the streaming resolver emit
the string A1-undefined for that record, contradicting the claim that no
string is emitted for an incomplete record and that no emitted string ever
has a missing field. -/
theorem incomplete_record_emits_undefined :
    processEvents [strL "ClientID", strL "ClaimID"] (strL "-") []
      [(⟨.ANY_VALUE, .obj [(strL "ClientID", .str (strL "A1"))]⟩ : JsonEvent)] =
      .ok [strL "A1-undefined"] ∧
    processEvents [strL "ClientID", strL "ClaimID"] (strL "-") []
      [(⟨.ANY_VALUE, .obj [(strL "ClientID", .str (strL "A1"))]⟩ : JsonEvent)] ≠
      .ok [] := by
  refine ⟨rfl, ?_⟩
  rw [show processEvents [strL "ClientID", strL "ClaimID"] (strL "-") []
      [(⟨.ANY_VALUE, .obj [(strL "ClientID", .str (strL "A1"))]⟩ : JsonEvent)] =
      .ok [strL "A1-undefined"] from rfl]
  simp

/-- A non-last field contribution either raises the type error or yields a
value; no other error arises there. -/
theorem concatField_error_or_ok (data : Json) (d : List Char) (f : List Char) :
    concatField data d f = .error .typeError ∨
      ∃ v, concatField data d f = .ok v := by
  cases hl : lookupField data f with
  | none => exact Or.inl (by simp [concatField, hl])
  | some v =>
    cases v with
    | str s => exact Or.inr ⟨s ++ d, by simp [concatField, hl]⟩
    | arr xs =>
      exact Or.inr ⟨jsToString (.arr (xs ++ [.str d])), by simp [concatField, hl]⟩
    | nul => exact Or.inl (by simp [concatField, hl])
    | boolean b => exact Or.inl (by simp [concatField, hl])
    | num n => exact Or.inl (by simp [concatField, hl])
    | obj ms => exact Or.inl (by simp [concatField, hl])

/-- A requested field that is not the last and has no value in the record
data makes the value accumulation raise the type error: its contribution
dereferences the concat method of an undefined value. -/
theorem buildParserValue_missing_nonlast (data : Json) (d : List Char) :
    ∀ (pre : List (List Char)) (g : List Char) (post : List (List Char)),
      post ≠ [] → lookupField data g = none →
      buildParserValue data d (pre ++ g :: post) = .error .typeError := by
  intro pre
  induction pre with
  | nil =>
    intro g post hpost hg
    cases post with
    | nil => exact absurd rfl hpost
    | cons p ps => simp [buildParserValue, concatField, hg]
  | cons f pre ih =>
    intro g post hpost hg
    rw [List.cons_append]
    rcases hsh : pre ++ g :: post with - | ⟨x, xs⟩
    · exact absurd hsh (by simp)
    · rcases concatField_error_or_ok data d f with herr | ⟨v, hok⟩
      · simp [buildParserValue, herr]
      · have htail := ih g post hpost hg
        rw [hsh] at htail
        simp [buildParserValue, hok, htail]

/-- When every field before the last one has a string value, the value
accumulation succeeds whatever the last field holds, yielding each field
text in order: the last field is ToString-coerced, a missing one to the
text undefined. -/
theorem buildParserValue_with_last (data : Json) (d : List Char) :
    ∀ (pre : List (List Char)) (g : List Char),
      (∀ f ∈ pre, ∃ s, lookupField data f = some (.str s)) →
      buildParserValue data d (pre ++ [g]) =
        .ok (intercalateL d ((pre ++ [g]).map (lastField data))) := by
  intro pre
  induction pre with
  | nil => intro g h; simp [buildParserValue, intercalateL]
  | cons f pre ih =>
    intro g h
    obtain ⟨s, hs⟩ := h f (List.mem_cons_self f pre)
    have hrest := ih g (fun f2 hf2 => h f2 (List.mem_cons_of_mem f hf2))
    rw [List.cons_append]
    rcases hsh : pre ++ [g] with - | ⟨x, xs⟩
    · exact absurd hsh (by simp)
    · rw [hsh] at hrest
      have hcf : concatField data d f = .ok (s ++ d) := by simp [concatField, hs]
      have hlf : lastField data f = s := by
        simp [lastField, hs, jsToString, jsToStringFuel]
      simp [buildParserValue, hcf, hrest, hlf, intercalateL, List.append_assoc]

/-- C7 amended: a logical record (the data of an ANY_VALUE event) lacking a
value for a requested field is not silently skipped. If the missing field is
not the last requested one, the parser callback raises a type error and the
run aborts; if every field before the last has a string value, a string is
emitted even when the last field is missing, with the text undefined
standing in for the missing value. -/
theorem missing_field_not_skipped (fieldNames : List (List Char))
    (concatDelimiter : List Char) (searchValues : List (List Char))
    (event : JsonEvent) (htype : event.type = .ANY_VALUE) :
    ((∃ pre g post, fieldNames = pre ++ g :: post ∧ post ≠ [] ∧
        lookupField event.data g = none) →
      parserCallback fieldNames concatDelimiter searchValues event =
        .error .typeError) ∧
    (∀ pre g, fieldNames = pre ++ [g] →
      (∀ f ∈ pre, ∃ s, lookupField event.data f = some (.str s)) →
      lookupField event.data g = none →
      parserCallback fieldNames concatDelimiter searchValues event =
        .ok (searchValues ++ [intercalateL concatDelimiter
          (fieldNames.map (lastField event.data))])) := by
  obtain ⟨t, dat⟩ := event
  simp only at htype
  subst htype
  constructor
  · rintro ⟨pre, g, post, hsh, hpost, hg⟩
    subst hsh
    have hmiss := buildParserValue_missing_nonlast dat concatDelimiter pre g post hpost hg
    simp [parserCallback, hmiss]
  · intro pre g hsh hpre hg
    subst hsh
    have hlast := buildParserValue_with_last dat concatDelimiter pre g hpre
    simp [parserCallback, hlast]

/-- C7 witness: a concrete record with ClientID A1 and no ClaimID field
makes the callback emit the string A1-undefined. -/
theorem missing_field_not_skipped_witness :
    parserCallback [strL "ClientID", strL "ClaimID"] (strL "-") []
      (⟨.ANY_VALUE, .obj [(strL "ClientID", .str (strL "A1"))]⟩ : JsonEvent) =
      .ok [strL "A1-undefined"] := by
  have h := (missing_field_not_skipped [strL "ClientID", strL "ClaimID"] (strL "-") []
      (⟨.ANY_VALUE, .obj [(strL "ClientID", .str (strL "A1"))]⟩ : JsonEvent) rfl).2
      [strL "ClientID"] (strL "ClaimID") rfl
      (by
        intro f hf
        rw [List.mem_singleton] at hf
        subst hf
        exact ⟨strL "A1", rfl⟩)
      rfl
  exact h.trans (by rfl)

/-- The string value of a present string field seen through getStr. -/
theorem getStr_some (data : Json) (f : List Char) (s : List Char) :
    getStr data f = some s → lookupField data f = some (.str s) := by
  unfold getStr
  cases h : lookupField data f with
  | none => simp
  | some v => cases v <;> simp_all


/-- When every requested field has a string value in the record data, the
value accumulation of the parser callback produces exactly the field values
in the user-specified order with the delimiter between consecutive fields
and not after the last. -/
theorem buildParserValue_complete (data : Json) (d : List Char) :
    ∀ fields, (∀ f ∈ fields, (getStr data f).isSome = true) →
      buildParserValue data d fields = .ok (recordString d fields data) := by
  intro fields
  induction fields with
  | nil => intro h; rfl
  | cons f rest ih =>
    intro h
    cases hf : getStr data f with
    | none =>
      have hsome := h f (List.mem_cons_self f rest)
      rw [hf] at hsome
      simp at hsome
    | some v =>
      have hl : lookupField data f = some (.str v) := getStr_some data f v hf
      cases rest with
      | nil =>
        simp [buildParserValue, lastField, hl, jsToString, jsToStringFuel,
          recordString, hf, intercalateL]
      | cons f2 rest2 =>
        have hrest := ih (fun g hg => h g (List.mem_cons_of_mem f hg))
        have hcf : concatField data d f = .ok (v ++ d) := by simp [concatField, hl]
        simp [buildParserValue, hcf, hrest, recordString, hf, intercalateL,
          List.append_assoc]

/-- Threading the accumulator: on a stream of complete records the callback
appends one record string per ANY_VALUE event, in arrival order. -/
theorem processEvents_complete_aux (fieldNames : List (List Char))
    (concatDelimiter : List Char) :
    ∀ (events : List JsonEvent) (acc : List (List Char)),
      (∀ e ∈ events, e.type = .ANY_VALUE →
        ∀ f ∈ fieldNames, (getStr e.data f).isSome = true) →
      processEvents fieldNames concatDelimiter acc events =
        .ok (acc ++ (keepANY events).map
          (fun e => recordString concatDelimiter fieldNames e.data)) := by
  intro events
  induction events with
  | nil => intro acc h; simp [processEvents, keepANY]
  | cons e rest ih =>
    intro acc h
    obtain ⟨t, dat⟩ := e
    cases t
    case ANY_VALUE =>
      have hfields : ∀ f ∈ fieldNames, (getStr dat f).isSome = true :=
        h ⟨.ANY_VALUE, dat⟩ (List.mem_cons_self _ _) rfl
      have hbv := buildParserValue_complete dat concatDelimiter fieldNames hfields
      have hrest := ih (acc ++ [recordString concatDelimiter fieldNames dat])
        (fun e2 he2 => h e2 (List.mem_cons_of_mem _ he2))
      simp only [processEvents, parserCallback, hbv]
      rw [hrest]
      simp [keepANY, List.append_assoc]
    all_goals
      have hrest := ih acc (fun e2 he2 => h e2 (List.mem_cons_of_mem _ he2))
      simp only [processEvents, parserCallback]
      rw [hrest]
      simp [keepANY]

/-- C2 amended: each ANY_VALUE event materializes one logical record; on a
stream in which every such record carries a string value for every requested
field name, the resolver emits exactly one string per record, in arrival
order, equal to the field values in the user-specified field order with the
delimiter between consecutive fields and not after the last; a record
missing a field that is not the last requested one instead aborts the run
with a type error. -/
theorem streaming_one_string_per_record (fieldNames : List (List Char))
    (concatDelimiter : List Char) (events : List JsonEvent)
    (hcomplete : ∀ e ∈ events, e.type = .ANY_VALUE →
      ∀ f ∈ fieldNames, (getStr e.data f).isSome = true) :
    processEvents fieldNames concatDelimiter [] events =
      .ok ((keepANY events).map
        (fun e => recordString concatDelimiter fieldNames e.data)) := by
  simpa using
    processEvents_complete_aux fieldNames concatDelimiter events [] hcomplete

/-- C2 witness: two complete records interleaved with a structural event
yield exactly the two concatenated strings, in arrival order. -/
theorem streaming_one_string_per_record_witness :
    processEvents [strL "ClientID", strL "ClaimID"] (strL "-") []
      [(⟨.ANY_VALUE, .obj
          [(strL "ClientID", .str (strL "A1")), (strL "ClaimID", .str (strL "99"))]⟩ : JsonEvent),
       (⟨.END_OBJECT, .nul⟩ : JsonEvent),
       (⟨.ANY_VALUE, .obj
          [(strL "ClientID", .str (strL "A2")), (strL "ClaimID", .str (strL "88"))]⟩ : JsonEvent)] =
      .ok [strL "A1-99", strL "A2-88"] := by
  rw [streaming_one_string_per_record _ _ _ (by decide)]
  rfl

/-- C2 counterexample: of three arriving records the first and third are
complete and the second lacks ClientID, a field that is not the last
requested one; instead of emitting one string per completed record, the run
aborts with a type error when the missing field dereferences concat, and
emits nothing. -/
theorem completed_records_lost_after_error :
    processEvents [strL "ClientID", strL "ClaimID"] (strL "-") []
      [(⟨.ANY_VALUE, .obj
          [(strL "ClientID", .str (strL "A1")), (strL "ClaimID", .str (strL "99"))]⟩ : JsonEvent),
       (⟨.ANY_VALUE, .obj [(strL "ClaimID", .str (strL "88"))]⟩ : JsonEvent),
       (⟨.ANY_VALUE, .obj
          [(strL "ClientID", .str (strL "A3")), (strL "ClaimID", .str (strL "77"))]⟩ : JsonEvent)] =
      .error .typeError ∧
    processEvents [strL "ClientID", strL "ClaimID"] (strL "-") []
      [(⟨.ANY_VALUE, .obj
          [(strL "ClientID", .str (strL "A1")), (strL "ClaimID", .str (strL "99"))]⟩ : JsonEvent),
       (⟨.ANY_VALUE, .obj [(strL "ClaimID", .str (strL "88"))]⟩ : JsonEvent),
       (⟨.ANY_VALUE, .obj
          [(strL "ClientID", .str (strL "A3")), (strL "ClaimID", .str (strL "77"))]⟩ : JsonEvent)] ≠
      .ok [strL "A1-99", strL "A3-77"] := by
  constructor
  · rfl
  · rw [show processEvents [strL "ClientID", strL "ClaimID"] (strL "-") []
      [(⟨.ANY_VALUE, .obj
          [(strL "ClientID", .str (strL "A1")), (strL "ClaimID", .str (strL "99"))]⟩ : JsonEvent),
       (⟨.ANY_VALUE, .obj [(strL "ClaimID", .str (strL "88"))]⟩ : JsonEvent),
       (⟨.ANY_VALUE, .obj
          [(strL "ClientID", .str (strL "A3")), (strL "ClaimID", .str (strL "77"))]⟩ : JsonEvent)] =
      .error .typeError from rfl]
    simp

/-- A string starts with itself followed by anything. -/
theorem startsWithL_self_append : ∀ (p t : List Char), startsWithL p (p ++ t) = true := by
  intro p t
  induction p with
  | nil => rfl
  | cons c p ih => simp [startsWithL, ih]

/-- A concat specification closed by a parenthesis ends with it. -/
theorem lastIs_append_paren (s : List Char) :
    lastIs ')' (strL "concat(" ++ s ++ strL ")") = true := by
  rw [show strL ")" = [')'] from rfl]
  simp [lastIs, List.reverse_append]

/-- Prepending the concat token preserves not ending in a parenthesis. -/
theorem lastIs_concat_noparen (s : List Char) (h : lastIs ')' s = false) :
    lastIs ')' (strL "concat(" ++ s) = false := by
  cases hs : s.reverse with
  | nil =>
    have hnil : s = [] := by simpa using congrArg List.reverse hs
    subst hnil
    rfl
  | cons x xs =>
    unfold lastIs at h ⊢
    rw [hs] at h
    rw [List.reverse_append, hs]
    simpa [List.cons_append] using h

/-- In-range substring extraction is drop then take. -/
theorem substringJS_drop_take (a b : Nat) (l : List Char)
    (h1 : a ≤ b) (h2 : b ≤ l.length) :
    substringJS a b l = (l.drop a).take (b - a) := by
  simp only [substringJS]
  have hx : min (min a b) l.length = a := by omega
  have hy : min (max a b) l.length = b := by omega
  rw [hx, hy]

/-- The body of a closed concat specification is the argument text. -/
theorem concatBody_with_paren (s : List Char) :
    concatBody (strL "concat(" ++ s ++ strL ")") = s := by
  have e1 : (strL "concat(").length = 7 := rfl
  have e2 : (strL ")").length = 1 := rfl
  have hlen : (strL "concat(" ++ s ++ strL ")").length = s.length + 8 := by
    simp only [List.length_append, e1, e2]
    omega
  unfold concatBody
  rw [lastIs_append_paren]
  simp only [if_true]
  rw [substringJS_drop_take _ _ _ (by omega) (by omega)]
  rw [show strL "concat(" ++ s ++ strL ")" = strL "concat(" ++ (s ++ strL ")") from
    List.append_assoc _ _ _]
  rw [List.drop_left]
  rw [show (strL "concat(" ++ (s ++ strL ")")).length - 1 - (strL "concat(").length
      = s.length by simp only [List.length_append, e1, e2]; omega]
  exact List.take_left' rfl

/-- The body of an unclosed concat specification is the argument text. -/
theorem concatBody_without_paren (s : List Char) (h : lastIs ')' s = false) :
    concatBody (strL "concat(" ++ s) = s := by
  have e1 : (strL "concat(").length = 7 := rfl
  have hlen : (strL "concat(" ++ s).length = s.length + 7 := by
    simp only [List.length_append, e1]
    omega
  unfold concatBody
  rw [lastIs_concat_noparen s h]
  simp only [if_false, Bool.false_eq_true]
  rw [substringJS_drop_take _ _ _ (by omega) (by omega)]
  rw [List.drop_left]
  rw [show (strL "concat(" ++ s).length - (strL "concat(").length = s.length by
    simp only [List.length_append, e1]; omega]
  exact List.take_length s

/-- C9 counterexample: for the argument body that itself ends in a closing
parenthesis, adding the optional trailing parenthesis changes the parse: the
closed form keeps the inner parenthesis in the last argument, the open form
does not. -/
theorem trailing_paren_changes_parse :
    getSearchPathExpressions (strL "concat(-,a,b))") = .ok [strL "a", strL "b)"] ∧
    getSearchPathExpressions (strL "concat(-,a,b)") = .ok [strL "a", strL "b"] ∧
    getSearchPathExpressions (strL "concat(-,a,b))") ≠
      getSearchPathExpressions (strL "concat(-,a,b)") := by
  refine ⟨rfl, rfl, fun h => ?_⟩
  rw [show getSearchPathExpressions (strL "concat(-,a,b))") =
      .ok [strL "a", strL "b)"] from rfl,
    show getSearchPathExpressions (strL "concat(-,a,b)") =
      .ok [strL "a", strL "b"] from rfl] at h
  injection h with h2
  exact absurd h2 (by decide)

/-- C9 amended: when the argument body does not itself end in a closing
parenthesis, the specification with the trailing parenthesis and the one
without it parse to the same path expressions and the same delimiter. -/
theorem concat_close_paren_optional (s : List Char) (h : lastIs ')' s = false) :
    getSearchPathExpressions (strL "concat(" ++ s ++ strL ")") =
      getSearchPathExpressions (strL "concat(" ++ s) ∧
    getConcatenatedDelimiter (strL "concat(" ++ s ++ strL ")") =
      getConcatenatedDelimiter (strL "concat(" ++ s) := by
  have hargs : getConcatenatedPathArgs (strL "concat(" ++ s ++ strL ")") =
      getConcatenatedPathArgs (strL "concat(" ++ s) := by
    unfold getConcatenatedPathArgs
    rw [concatBody_with_paren s, concatBody_without_paren s h]
  have hc1 : isConcatenated (strL "concat(" ++ s ++ strL ")") = true := by
    unfold isConcatenated
    rw [List.append_assoc]
    exact startsWithL_self_append _ _
  have hc2 : isConcatenated (strL "concat(" ++ s) = true :=
    startsWithL_self_append _ _
  constructor
  · simp only [getSearchPathExpressions, hc1, hc2, if_true, hargs]
  · unfold getConcatenatedDelimiter
    rw [hargs]

/-- C9 witness: for the body -,a,b the closed and the open specification
parse identically. -/
theorem concat_close_paren_optional_witness :
    getSearchPathExpressions (strL "concat(" ++ strL "-,a,b" ++ strL ")") =
      getSearchPathExpressions (strL "concat(" ++ strL "-,a,b") :=
  (concat_close_paren_optional (strL "-,a,b") (by decide)).1

/-- Hexadecimal digits decode back to their value. -/
theorem hexVal_hexDig (n : Nat) (h : n < 16) : hexVal (hexDig n) = some n := by
  interval_cases n <;> rfl

/-- Decoding one escaped character consumes exactly its escape, one unit of
fuel, and yields the character back. -/
theorem parseJStr_escape1 (c : Char) (f : Nat) (t : List Char) :
    parseJStr (f + 1) (escape1 c ++ t) =
      (parseJStr f t).map (fun p => (c :: p.1, p.2)) := by
  unfold escape1
  split_ifs with h1 h2 h3 h4 h5 h6 h7 h8
  · subst h1
    simp only [List.cons_append, List.nil_append]
    rw [parseJStr]; simp [unescape1]
  · subst h2
    simp only [List.cons_append, List.nil_append]
    rw [parseJStr]; simp [unescape1]
  · subst h3
    simp only [List.cons_append, List.nil_append]
    rw [parseJStr]; simp [unescape1]
  · subst h4
    simp only [List.cons_append, List.nil_append]
    rw [parseJStr]; simp [unescape1]
  · subst h5
    simp only [List.cons_append, List.nil_append]
    rw [parseJStr]; simp [unescape1]
  · subst h6
    simp only [List.cons_append, List.nil_append]
    rw [parseJStr]; simp [unescape1]
  · subst h7
    simp only [List.cons_append, List.nil_append]
    rw [parseJStr]; simp [unescape1]
  · have hd1 : hexVal (hexDig (c.toNat / 16)) = some (c.toNat / 16) :=
      hexVal_hexDig _ (by omega)
    have hd2 : hexVal (hexDig (c.toNat % 16)) = some (c.toNat % 16) :=
      hexVal_hexDig _ (by omega)
    simp only [List.cons_append, List.nil_append]
    rw [parseJStr]
    simp [decodeHex4, hd1, hd2, show hexVal '0' = some 0 from rfl]
    have harith : c.toNat / 16 * 16 + c.toNat % 16 = c.toNat := by omega
    simp only [harith, Char.ofNat_toNat]
  · rw [List.singleton_append]
    rw [parseJStr.eq_def]
    simp [h1, h2]

/-- The escape of a value followed by the closing quote decodes back to the
value, consuming one unit of fuel per character. -/
theorem parseJStr_escape (v : List Char) :
    ∀ (f : Nat) (t : List Char), v.length < f →
      parseJStr f (escCh v ++ '"' :: t) = some (v, t) := by
  induction v with
  | nil =>
    intro f t hf
    cases f with
    | zero => omega
    | succ f =>
      rw [show escCh [] ++ '"' :: t = '"' :: t from rfl]
      rw [parseJStr.eq_def]
      simp
  | cons c v ih =>
    intro f t hf
    cases f with
    | zero => simp at hf
    | succ f =>
      rw [show escCh (c :: v) ++ '"' :: t = escape1 c ++ (escCh v ++ '"' :: t) from by
        simp [escCh, List.append_assoc]]
      rw [parseJStr_escape1, ih f t (by simp at hf; omega)]
      rfl

/-- Every character escape is at least one character long. -/
theorem escape1_len (c : Char) : 1 ≤ (escape1 c).length := by
  unfold escape1
  split_ifs <;> simp

/-- Escaping does not shorten a string. -/
theorem escCh_len (v : List Char) : v.length ≤ (escCh v).length := by
  induction v with
  | nil => simp [escCh]
  | cons c v ih =>
    have h1 := escape1_len c
    simp only [escCh, List.flatMap_cons, List.length_append, List.length_cons] at ih ⊢
    omega

/-- The encoded elements of an array are at least as many characters as
there are elements. -/
theorem flatMapQuote_len (vs : List (List Char)) :
    vs.length ≤ (vs.flatMap (fun u => ',' :: quoteStr u)).length := by
  induction vs with
  | nil => simp
  | cons v vs ih =>
    simp only [List.flatMap_cons, List.length_append, List.length_cons] at ih ⊢
    omega

/-- Decoding the encoded tail of a string array recovers the remaining
elements, with fuel at least the number of elements. -/
theorem parseArrTail_rt : ∀ (vs : List (List Char)) (fuel : Nat) (t : List Char),
    vs.length ≤ fuel →
    parseArrTail fuel ((vs.flatMap (fun u => ',' :: quoteStr u)) ++ ']' :: t) =
      some (vs, t) := by
  intro vs
  induction vs with
  | nil =>
    intro fuel t h
    cases fuel <;> rfl
  | cons v vs ih =>
    intro fuel t h
    cases fuel with
    | zero => simp at h
    | succ f =>
      rw [show ((v :: vs).flatMap (fun u => ',' :: quoteStr u)) ++ ']' :: t =
          ',' :: '"' :: (escCh v ++ '"' ::
            ((vs.flatMap (fun u => ',' :: quoteStr u)) ++ ']' :: t)) from by
        simp [quoteStr, List.append_assoc]]
      rw [parseArrTail]
      have hlen : v.length <
          (escCh v ++ '"' ::
            ((vs.flatMap (fun u => ',' :: quoteStr u)) ++ ']' :: t)).length := by
        have := escCh_len v
        simp only [List.length_append, List.length_cons]
        omega
      rw [parseJStr_escape v _ _ hlen]
      dsimp only
      rw [ih f t (by simp at h; omega)]

/-- Consuming a literal that the input starts with succeeds and leaves the
remainder. -/
theorem dropLead_self : ∀ (p l : List Char), dropLead p (p ++ l) = some l := by
  intro p
  induction p with
  | nil => intro l; rfl
  | cons c p ih => intro l; simp [dropLead, ih]

/-- The comma-joined quoted elements coincide with the first quoted element
followed by the comma-prefixed remaining ones. -/
theorem interShape : ∀ (vs : List (List Char)) (v : List Char),
    intercalateL (strL ",") ((v :: vs).map quoteStr) =
      quoteStr v ++ vs.flatMap (fun u => ',' :: quoteStr u) := by
  intro vs
  induction vs with
  | nil => intro v; simp [intercalateL]
  | cons w ws ih =>
    intro v
    rw [show ((v :: w :: ws).map quoteStr) =
        quoteStr v :: quoteStr w :: ws.map quoteStr from rfl]
    rw [intercalateL]
    rw [show (quoteStr w :: ws.map quoteStr) = (w :: ws).map quoteStr from rfl]
    rw [ih w]
    rw [show strL "," = [','] from rfl]
    simp [List.append_assoc]

/-- Decoding the serialized non-empty array after the leading text recovers
the values. -/
theorem decodeAfterLead_shape (v : List Char) (vs : List (List Char)) :
    decodeAfterLead ('"' :: (escCh v ++ '"' ::
      ((vs.flatMap (fun u => ',' :: quoteStr u)) ++ ']' :: strL "\x7d"))) =
      some (v :: vs) := by
  rw [decodeAfterLead]
  have hlen : v.length < (escCh v ++ '"' ::
      ((vs.flatMap (fun u => ',' :: quoteStr u)) ++ ']' :: strL "\x7d")).length := by
    have := escCh_len v
    simp only [List.length_append, List.length_cons]
    omega
  rw [parseJStr_escape v _ _ hlen]
  dsimp only
  have hb : vs.length ≤
      ((vs.flatMap (fun u => ',' :: quoteStr u)) ++ ']' :: strL "\x7d").length := by
    have := flatMapQuote_len vs
    simp only [List.length_append, List.length_cons]
    omega
  rw [parseArrTail_rt vs _ _ hb]
  simp

/-- C8: the streaming-mode serializer renders exactly the values object: the
reference decoder recovers every list of resolved value strings from the
rendered output unchanged and in order, and the empty list renders as the
empty values object. -/
theorem serialize_values_round_trip :
    (∀ vs, decodeValuesObj (serializeValues vs) = some vs) ∧
    serializeValues [] = strL "\x7b\"values\":[]\x7d" := by
  refine ⟨fun vs => ?_, rfl⟩
  cases vs with
  | nil => rfl
  | cons v vs =>
    have hshape : serializeValues (v :: vs) =
        strL "\x7b\"values\":[" ++ '"' :: (escCh v ++ '"' ::
          ((vs.flatMap (fun u => ',' :: quoteStr u)) ++ ']' :: strL "\x7d")) := by
      unfold serializeValues stringifyArr
      rw [interShape vs v]
      rw [show strL "\x7b\"values\":[" = strL "\x7b\"values\":" ++ ['['] from rfl]
      rw [show quoteStr v = '"' :: (escCh v ++ ['"']) from rfl]
      simp [List.append_assoc]
    rw [hshape]
    unfold decodeValuesObj
    rw [dropLead_self]
    exact decodeAfterLead_shape v vs
